import Mathlib

/-!
Shallow embedding of `src/msdt-1/код.py` (a small numerical toolkit built on
NumPy/SciPy) and verification of its specification claims.

Modelling conventions:
* Python floats are modelled by exact rationals `ℚ` (reals `ℝ` where a square
  root is involved); NumPy arrays of coefficients/samples by `List ℚ`.
* A Python function that can raise is modelled as returning `Except PyExc _`;
  `PyExc` lists the exception types the modelled code can actually raise.
* NumPy/SciPy library calls appearing in the source (`np.polyadd`, `np.polyval`,
  `np.roots`, `scipy.integrate.quad`, `scipy.integrate.solve_ivp`, ...) are
  embedded from the libraries' documented semantics and source structure, since
  the repository delegates to them directly.  Purely numeric kernels whose
  constants are irrational (companion-matrix eigenvalues, quadrature nodes, the
  Runge-Kutta error test) are taken as explicit parameters of the model; every
  theorem below quantifies over them, so no conclusion depends on their values.
-/

namespace Msdt

/-- The Python exception types relevant to the modelled code paths. Note that
the program defines no exception classes of its own: in particular no
`DegenerateInputError`, `InvalidIntervalError` or `EmptySampleError` exists
anywhere in the source. -/
inductive PyExc where
  | typeError (msg : String)
  | attributeError (name : String)
  | valueError (msg : String)
deriving DecidableEq, Repr

/-- `Polynomial` (код.py lines 8-49): coefficients highest degree first. -/
structure Polynomial where
  coefficients : List ℚ
deriving DecidableEq, Repr

/-- Pad a coefficient list with `n` zeros at the high-degree (front) end, as
`np.polyadd`/`np.polysub` do to align operands of different lengths. -/
def padFront (n : ℕ) (l : List ℚ) : List ℚ :=
  List.replicate n 0 ++ l

/-- `np.polyadd`: align at the low-degree end (pad the shorter in front with
zeros) and add term-wise. -/
def polyadd (a b : List ℚ) : List ℚ :=
  List.zipWith (· + ·) (padFront (b.length - a.length) a) (padFront (a.length - b.length) b)

/-- `np.polysub`: align at the low-degree end and subtract term-wise. -/
def polysub (a b : List ℚ) : List ℚ :=
  List.zipWith (· - ·) (padFront (b.length - a.length) a) (padFront (a.length - b.length) b)

/-- `np.polymul`: full convolution of the coefficient sequences. -/
def polymul (a b : List ℚ) : List ℚ :=
  (List.range (a.length + b.length - 1)).map
    (fun k => ((List.range (k + 1)).map
      (fun i => (a.getD i 0) * (b.getD (k - i) 0))).sum)

/-- `np.polyval`: Horner evaluation, scanning coefficients high degree first. -/
def polyval (c : List ℚ) (x : ℚ) : ℚ :=
  c.foldl (fun acc t => acc * x + t) 0

/-- The multiplier sequence `np.arange(n, 0, -1) = [n, n-1, ..., 1]` used by
`np.polyder` and (as divisors) by `np.polyint`. -/
def derMultipliers (n : ℕ) : List ℚ :=
  (List.range n).map (fun i => ((n - i : ℕ) : ℚ))

/-- `np.polyder`: drop the constant term and multiply term-wise by
`[n, ..., 1]` where `n = len p - 1`. -/
def polyder (p : List ℚ) : List ℚ :=
  List.zipWith (· * ·) p.dropLast (derMultipliers (p.length - 1))

/-- `np.polyint` with integration constant `k = 0`: divide term-wise by
`[n, ..., 1]` (`n = len p`) and append the zero constant term. -/
def polyint (p : List ℚ) : List ℚ :=
  List.zipWith (· / ·) p (derMultipliers p.length) ++ [0]

/-- `Polynomial.__add__` (код.py 18-21). -/
def Polynomial.add (a b : Polynomial) : Polynomial :=
  ⟨polyadd a.coefficients b.coefficients⟩

/-- `Polynomial.__subtract__` (код.py 23-26).  Note the name: this is an
ordinary method, not the `__sub__` operator hook. -/
def Polynomial.subtract (a b : Polynomial) : Polynomial :=
  ⟨polysub a.coefficients b.coefficients⟩

/-- `Polynomial.__multiply__` (код.py 28-31).  Again not `__mul__`. -/
def Polynomial.multiply (a b : Polynomial) : Polynomial :=
  ⟨polymul a.coefficients b.coefficients⟩

/-- `Polynomial.evaluate_at` (код.py 33-35): `np.polyval`. -/
def Polynomial.evaluate_at (p : Polynomial) (x : ℚ) : ℚ :=
  polyval p.coefficients x

/-- `Polynomial.compute_derivative` (код.py 37-40): `np.polyder`. -/
def Polynomial.compute_derivative (p : Polynomial) : Polynomial :=
  ⟨polyder p.coefficients⟩

/-- `Polynomial.compute_integral` (код.py 42-45): `np.polyint`. -/
def Polynomial.compute_integral (p : Polynomial) : Polynomial :=
  ⟨polyint p.coefficients⟩

section PolyvalLemmas

/-- Horner's fold started from accumulator `a` differs from the one started
from `0` by `a * x ^ length`. -/
theorem polyval_foldl_shift (l : List ℚ) (a x : ℚ) :
    l.foldl (fun acc t => acc * x + t) a = a * x ^ l.length + polyval l x := by
  induction l generalizing a with
  | nil => simp [polyval]
  | cons c t ih =>
    simp only [List.foldl_cons, polyval, List.length_cons]
    rw [ih (a * x + c), ih (0 * x + c)]
    ring

theorem polyval_cons (c : ℚ) (l : List ℚ) (x : ℚ) :
    polyval (c :: l) x = c * x ^ l.length + polyval l x := by
  have h := polyval_foldl_shift l (0 * x + c) x
  simp only [polyval, List.foldl_cons] at *
  rw [h]; ring

/-- Padding with high-degree zeros does not change the value of a polynomial. -/
theorem polyval_padFront (n : ℕ) (l : List ℚ) (x : ℚ) :
    polyval (padFront n l) x = polyval l x := by
  induction n with
  | zero => simp [padFront]
  | succ m ih =>
    have : padFront (m + 1) l = 0 :: padFront m l := by
      simp [padFront, List.replicate_succ]
    rw [this, polyval_cons, ih]
    ring

/-- Term-wise addition of coefficient lists of equal length adds values. -/
theorem polyval_zipWith_add (a b : List ℚ) (x : ℚ) (h : a.length = b.length) :
    polyval (List.zipWith (· + ·) a b) x = polyval a x + polyval b x := by
  induction a generalizing b with
  | nil =>
    cases b with
    | nil => simp [polyval]
    | cons d t => simp at h
  | cons c t ih =>
    cases b with
    | nil => simp at h
    | cons d u =>
      simp only [List.length_cons, Nat.succ.injEq] at h
      simp only [List.zipWith_cons_cons]
      rw [polyval_cons, polyval_cons, polyval_cons, ih u h]
      have hlen : (List.zipWith (· + ·) t u).length = t.length := by
        simp [List.length_zipWith, h]
      rw [hlen, h]
      ring

end PolyvalLemmas

/-- C2: Evaluation is additive over `Polynomial.add`: for all polynomials `p`,
`q` (coefficient lists of possibly different lengths, aligned at the low-degree
end by `np.polyadd`) and every `x`,
`(p + q).evaluate_at x = p.evaluate_at x + q.evaluate_at x`. -/
theorem evaluate_at_add_hom (p q : Polynomial) (x : ℚ) :
    (p.add q).evaluate_at x = p.evaluate_at x + q.evaluate_at x := by
  unfold Polynomial.add Polynomial.evaluate_at polyadd
  set a := p.coefficients
  set b := q.coefficients
  have hlen : (padFront (b.length - a.length) a).length
      = (padFront (a.length - b.length) b).length := by
    simp only [padFront, List.length_append, List.length_replicate]
    omega
  rw [polyval_zipWith_add _ _ _ hlen, polyval_padFront, polyval_padFront]

/-- `true` iff the modelled Python call returns normally (does not raise). -/
def returnsNormally {α : Type} : Except PyExc α → Bool
  | .ok _ => true
  | .error _ => false

theorem derMultipliers_length (n : ℕ) : (derMultipliers n).length = n := by
  simp [derMultipliers]

/-- C3: `compute_integral` appends the constant term 0 (the fixed offset
convention of `np.polyint` with `k = 0`), and `compute_derivative` of
`compute_integral p` recovers `p`'s coefficient list exactly. -/
theorem derivative_integral_roundtrip (p : Polynomial) :
    p.compute_integral.coefficients.getLast? = some 0 ∧
      p.compute_integral.compute_derivative = p := by
  obtain ⟨c⟩ := p
  constructor
  · simp [Polynomial.compute_integral, polyint]
  · simp only [Polynomial.compute_integral, Polynomial.compute_derivative,
      Polynomial.mk.injEq]
    unfold polyint polyder
    rw [List.dropLast_concat]
    have hlen : (List.zipWith (· / ·) c (derMultipliers c.length) ++ [(0 : ℚ)]).length - 1
        = c.length := by
      simp [List.length_zipWith, derMultipliers_length]
    rw [hlen]
    apply List.ext_getElem
    · simp [List.length_zipWith, derMultipliers_length]
    · intro i h1 h2
      simp only [List.getElem_zipWith, derMultipliers, List.getElem_map,
        List.getElem_range]
      have hne : ((c.length - i : ℕ) : ℚ) ≠ 0 := by
        have hpos : 0 < c.length - i := by
          simp only [List.length_zipWith, derMultipliers_length,
            List.length_map, List.length_range, Nat.min_self] at h1
          omega
        exact_mod_cast Nat.pos_iff_ne_zero.mp hpos
      exact div_mul_cancel₀ _ hne

/-- The class dictionary of `Polynomial` restricted to its binary methods
(код.py 18-31): the names under which Python stores them.  The subtraction and
multiplication methods are named `__subtract__` and `__multiply__`; the class
defines neither `__sub__`/`__rsub__` nor `__mul__`/`__rmul__`. -/
def polynomialBinaryMethods : List (String × (Polynomial → Polynomial → Polynomial)) :=
  [("__add__", Polynomial.add),
   ("__subtract__", Polynomial.subtract),
   ("__multiply__", Polynomial.multiply)]

/-- Python's binary-operator dispatch for two `Polynomial` operands: resolve
the operator's dunder name on the class of the left operand; failing that, the
reflected `__r...__` lookup searches the class of the right operand — the same
class here, so a single table lookup is faithful — and if neither resolves,
the interpreter raises `TypeError: unsupported operand type(s)`. -/
def applyBinaryOperator (dunder : String) (a b : Polynomial) : Except PyExc Polynomial :=
  match polynomialBinaryMethods.find? (fun m => m.1 == dunder) with
  | some m => .ok (m.2 a b)
  | none => .error (.typeError ("unsupported operand type(s) for " ++ dunder))

/-- `a + b` on Polynomials (used at код.py 243): dispatches on `__add__`. -/
def pyAddOp (a b : Polynomial) : Except PyExc Polynomial :=
  applyBinaryOperator "__add__" a b

/-- `a - b` on Polynomials (used at код.py 244): dispatches on `__sub__`. -/
def pySubOp (a b : Polynomial) : Except PyExc Polynomial :=
  applyBinaryOperator "__sub__" a b

/-- `a * b` on Polynomials (used at код.py 245): dispatches on `__mul__`. -/
def pyMulOp (a b : Polynomial) : Except PyExc Polynomial :=
  applyBinaryOperator "__mul__" a b

/-- C1: at the very operands `main` feeds them (`poly1 = Polynomial([1,-3,2])`,
`poly2 = Polynomial([1,1])`, код.py 240-245), the infix `-` and `*` raise
`TypeError` — the class misnames the operator hooks `__subtract__` and
`__multiply__`, names the interpreter never consults — while `+` succeeds and
a direct call of the misnamed subtraction method would also succeed. -/
theorem pyOperator_sub_mul_typeError :
    pySubOp ⟨[1, -3, 2]⟩ ⟨[1, 1]⟩
        = .error (.typeError "unsupported operand type(s) for __sub__") ∧
      pyMulOp ⟨[1, -3, 2]⟩ ⟨[1, 1]⟩
        = .error (.typeError "unsupported operand type(s) for __mul__") ∧
      pyAddOp ⟨[1, -3, 2]⟩ ⟨[1, 1]⟩ = .ok ⟨[1, -2, 3]⟩ ∧
      Polynomial.subtract ⟨[1, -3, 2]⟩ ⟨[1, 1]⟩ = ⟨[1, -4, 1]⟩ := by
  refine ⟨rfl, rfl, ?_, ?_⟩
  · norm_num [pyAddOp, applyBinaryOperator, polynomialBinaryMethods,
      Polynomial.add, polyadd, padFront]
  · norm_num [Polynomial.subtract, polysub, padFront]

/-- `np.roots` (called by `find_roots`, код.py 47-49).  NumPy strips leading
zeros (they do not make the call fail), counts trailing zeros of the stripped
vector as roots at 0, returns `[]` for an all-zero (or empty) coefficient
vector, and otherwise takes the eigenvalues of the companion matrix of the
stripped polynomial.  That eigenvalue kernel is the parameter `eig` (applied
to the stripped coefficients); no theorem below depends on its values. -/
def npRoots (eig : List ℚ → List ℂ) (p : List ℚ) : List ℂ :=
  let stripped := p.dropWhile (fun c => c == 0)
  let core := (stripped.reverse.dropWhile (fun c => c == 0)).reverse
  let trailing := stripped.length - core.length
  if core.isEmpty then []
  else (if 1 < core.length then eig core else []) ++ List.replicate trailing (0 : ℂ)

/-- `Polynomial.find_roots` (код.py 47-49): a direct call of `np.roots`.  The
only exception `np.roots` can raise (`ValueError` on a non-1-D input) is
impossible for a coefficient vector, so the call always returns a root list. -/
def Polynomial.find_roots (eig : List ℚ → List ℂ) (p : Polynomial) :
    Except PyExc (List ℂ) :=
  .ok (npRoots eig p.coefficients)

/-- C4 counterexample: on the polynomial `0·x² + 1·x + 0`, whose leading
coefficient is zero, `find_roots` does not fail: it returns the root list
`[0]` (independently of the eigenvalue kernel, which this input never
reaches). -/
theorem find_roots_zero_leading_counterexample :
    Polynomial.find_roots (fun _ => []) ⟨[0, 1, 0]⟩ = .ok [0] := by
  rfl

/-- C4 amended: a zero leading coefficient is simply stripped by `np.roots`,
so `find_roots` on `0 :: c` returns exactly what it returns on `c`, and in
particular returns a root sequence rather than raising (no
`DegenerateInputError` exists in the program). -/
theorem find_roots_strips_leading_zero (eig : List ℚ → List ℂ) (c : List ℚ) :
    Polynomial.find_roots eig ⟨0 :: c⟩ = Polynomial.find_roots eig ⟨c⟩ ∧
      returnsNormally (Polynomial.find_roots eig ⟨0 :: c⟩) = true := by
  constructor
  · unfold Polynomial.find_roots npRoots
    simp [List.dropWhile_cons]
  · rfl

/-! ## Quadrature (`NumericalIntegration`, код.py 52-65) -/

/-- One interpolatory quadrature panel on `[a, b]`: the affine image of a
reference rule on `[-1, 1]` given by `(node, weight)` pairs, i.e.
`(b-a)/2 · Σ wᵢ · f((a+b)/2 + (b-a)/2 · nodeᵢ)`.  QUADPACK's Gauss–Kronrod
rules (used by `scipy.integrate.quad`) have exactly this shape; their
irrational node/weight constants are the parameter `nw`. -/
def quadPanel (nw : List (ℚ × ℚ)) (f : ℚ → ℚ) (a b : ℚ) : ℚ :=
  let hlgth := (b - a) / 2
  let centr := (a + b) / 2
  hlgth * (nw.map (fun p => p.2 * f (centr + hlgth * p.1))).sum

/-- The adaptive driver of `scipy.integrate.quad` (QUADPACK QAGS) in the
standard subdivide-until-tolerance form: estimate the panel, compare against
the refined (bisected) estimate, accept when the discrepancy is within
tolerance, otherwise recurse on both halves, to a bounded subdivision depth
(scipy default `limit = 50`).  Nothing anywhere tests `a ≤ b`: QUADPACK works
with the signed half-length `(b-a)/2`, so reversed limits simply produce the
negated integral. -/
def adaptiveQuad (nw : List (ℚ × ℚ)) (tol : ℚ) : ℕ → (ℚ → ℚ) → ℚ → ℚ → ℚ
  | 0, f, a, b => quadPanel nw f a b
  | d + 1, f, a, b =>
    let whole := quadPanel nw f a b
    let m := (a + b) / 2
    let refined := quadPanel nw f a m + quadPanel nw f m b
    if |refined - whole| ≤ tol then whole
    else adaptiveQuad nw tol d f a m + adaptiveQuad nw tol d f m b

/-- `NumericalIntegration.integrate_funtion` (код.py 53-65, keeping the
source's spelling): `result, _ = quad(func, a, b); return result`.  For finite
bounds and a total integrand `quad` raises nothing, so the call always
returns. -/
def integrate_funtion (nw : List (ℚ × ℚ)) (tol : ℚ) (f : ℚ → ℚ) (a b : ℚ) :
    Except PyExc ℚ :=
  .ok (adaptiveQuad nw tol 50 f a b)

theorem quadPanel_same (nw : List (ℚ × ℚ)) (f : ℚ → ℚ) (a : ℚ) :
    quadPanel nw f a a = 0 := by
  simp [quadPanel]

theorem adaptiveQuad_same (nw : List (ℚ × ℚ)) (tol : ℚ) (d : ℕ) (f : ℚ → ℚ)
    (a : ℚ) : adaptiveQuad nw tol d f a a = 0 := by
  induction d with
  | zero => simp [adaptiveQuad, quadPanel_same]
  | succ n ih =>
    rw [adaptiveQuad]
    have hm : (a + a) / 2 = a := by ring
    simp [hm, quadPanel_same, ih]

/-- C5 amended: the quadrature call returns exactly 0 for every integrand
when `a = b`, and for `a > b` (indeed for every `a`, `b`) it returns a value
rather than raising — no `InvalidIntervalError` exists in the program and
`quad` accepts reversed limits, negating the result. -/
theorem integrate_zero_width_and_no_interval_error (nw : List (ℚ × ℚ))
    (tol : ℚ) (f : ℚ → ℚ) (a b : ℚ) :
    integrate_funtion nw tol f a a = .ok 0 ∧
      returnsNormally (integrate_funtion nw tol f a b) = true := by
  exact ⟨by simp [integrate_funtion, adaptiveQuad_same], rfl⟩

/-- Simpson's reference rule on `[-1, 1]`, a concrete instance of the panel
shape (the spec itself offers Simpson as an admissible rule pair). -/
def simpsonNW : List (ℚ × ℚ) := [(-1, 1 / 3), (0, 4 / 3), (1, 1 / 3)]

/-- C5 counterexample: with reversed limits `a = 1 > b = 0` the quadrature of
`f x = x` (at scipy's default tolerance) returns the value `-1/2` — the
negated forward integral — instead of raising an `InvalidIntervalError`. -/
theorem integrate_reversed_interval_returns_value :
    integrate_funtion simpsonNW (149 / 10 ^ 10) (fun x => x) 1 0
      = .ok (-(1 / 2)) := by
  unfold integrate_funtion
  rw [show (50 : ℕ) = 49 + 1 from rfl, adaptiveQuad]
  norm_num [quadPanel, simpsonNW]

/-! ## Statistics (`Statistics`, код.py 135-161) -/

/-- `Statistics.compute_mean` = `np.mean` (код.py 136-139): `sum / len`.  On
the empty sample NumPy emits a RuntimeWarning and returns NaN — a value, not
an exception; the model returns `.ok`, with Lean's `0 / 0 = 0` standing in
for NaN.  No theorem below uses the numeric value at the empty sample, only
the fact that a value is returned. -/
def compute_mean (data : List ℚ) : Except PyExc ℚ :=
  .ok (data.sum / data.length)

/-- `Statistics.compute_variance` = `np.var` (код.py 141-144): the population
variance `sum((x - mean)²)/len` (NumPy default `ddof = 0`); NaN-as-0 on the
empty sample as in `compute_mean`. -/
def compute_variance (data : List ℚ) : Except PyExc ℚ :=
  .ok ((data.map (fun v => (v - data.sum / data.length) ^ 2)).sum / data.length)

/-- `Statistics.compute_standard_deviation` = `np.std` (код.py 146-149): the
square root of the mean squared deviation, computed in `ℝ` (the square root is
the one operation of the source with no exact executable counterpart, so this
single definition is noncomputable; no witness needs to evaluate it). -/
noncomputable def compute_standard_deviation (data : List ℚ) : Except PyExc ℝ :=
  .ok (Real.sqrt
    ((data.map (fun v : ℚ => ((v : ℝ) - (data.sum : ℝ) / (data.length : ℝ)) ^ 2)).sum
      / (data.length : ℝ)))

/-- `Statistics.compute_median` = `np.median` (код.py 151-154): sort
ascending; an odd-length sample takes the middle element, an even-length one
averages the two central elements (NaN-as-0 on the empty sample). -/
def compute_median (data : List ℚ) : Except PyExc ℚ :=
  let s := List.insertionSort (· ≤ ·) data
  let n := data.length
  if n % 2 = 1 then .ok (s.getD (n / 2) 0)
  else .ok ((s.getD (n / 2 - 1) 0 + s.getD (n / 2) 0) / 2)

/-- `np.unique(data, return_counts=True)` (код.py 159): the ascending list of
distinct values, paired with their occurrence counts. -/
def npUnique (data : List ℚ) : List ℚ × List ℕ :=
  (List.insertionSort (· ≤ ·) data.dedup,
   (List.insertionSort (· ≤ ·) data.dedup).map (fun v => data.count v))

def listMaxNat (l : List ℕ) : ℕ := l.foldl max 0

/-- `np.argmax` (код.py 160): the index of the first occurrence of the
maximal entry; on an empty array NumPy raises
`ValueError: attempt to get argmax of an empty sequence`. -/
def npArgmax (l : List ℕ) : Except PyExc ℕ :=
  if l.isEmpty then .error (.valueError "attempt to get argmax of an empty sequence")
  else .ok (l.findIdx (fun x => x == listMaxNat l))

/-- `Statistics.compute_mode` (код.py 156-161): `np.unique` with counts, then
the value at the `np.argmax` of the counts (the index is always in range when
`argmax` succeeds, so `getD`'s default is never consulted); an exception from
`np.argmax` propagates out of the method. -/
def compute_mode (data : List ℚ) : Except PyExc ℚ :=
  (npArgmax (npUnique data).2).bind (fun i => .ok ((npUnique data).1.getD i 0))

/-- C6 counterexample: on the empty sample `compute_mean` returns a value
(NumPy: NaN, with a RuntimeWarning) — it raises nothing, in particular no
`EmptySampleError`, a class that exists nowhere in the program. -/
theorem empty_sample_mean_returns_value :
    compute_mean ([] : List ℚ) = .ok 0 := by
  norm_num [compute_mean]

/-- C6 amended: on the empty sample, mean/variance/standard deviation/median
return normally (NaN values), and `compute_mode` raises `ValueError` (from
`np.argmax` on an empty array) — no operation raises an `EmptySampleError`,
which does not exist in the program. -/
theorem empty_sample_behavior :
    returnsNormally (compute_mean ([] : List ℚ)) = true ∧
      returnsNormally (compute_variance ([] : List ℚ)) = true ∧
      returnsNormally (compute_standard_deviation ([] : List ℚ)) = true ∧
      returnsNormally (compute_median ([] : List ℚ)) = true ∧
      compute_mode ([] : List ℚ)
        = .error (.valueError "attempt to get argmax of an empty sequence") :=
  ⟨rfl, rfl, rfl, rfl, rfl⟩

theorem le_foldl_max (l : List ℕ) (a : ℕ) :
    a ≤ l.foldl max a ∧ ∀ x ∈ l, x ≤ l.foldl max a := by
  induction l generalizing a with
  | nil => simp
  | cons b t ih =>
    refine ⟨le_trans (le_max_left a b) (ih (max a b)).1, ?_⟩
    intro x hx
    rcases List.mem_cons.mp hx with hxb | hxt
    · subst hxb
      exact le_trans (le_max_right a x) (ih (max a x)).1
    · exact (ih (max a b)).2 x hxt

theorem foldl_max_eq_or_mem (l : List ℕ) (a : ℕ) :
    l.foldl max a = a ∨ l.foldl max a ∈ l := by
  induction l generalizing a with
  | nil => simp
  | cons b t ih =>
    rw [List.foldl_cons]
    rcases ih (max a b) with heq | hmem
    · rcases max_choice a b with hm | hm
      · left; rw [heq, hm]
      · right; rw [heq, hm]; exact List.mem_cons_self b t
    · right; exact List.mem_cons_of_mem b hmem

theorem listMaxNat_ge (l : List ℕ) : ∀ x ∈ l, x ≤ listMaxNat l :=
  (le_foldl_max l 0).2

theorem listMaxNat_mem (l : List ℕ) (h : l ≠ []) : listMaxNat l ∈ l := by
  rcases foldl_max_eq_or_mem l 0 with h0 | hm
  · obtain ⟨x, hx⟩ := List.exists_mem_of_ne_nil l h
    have hx0 : x ≤ 0 := by
      have := listMaxNat_ge l x hx
      unfold listMaxNat at this
      omega
    have hxz : x = 0 := Nat.le_zero.mp hx0
    unfold listMaxNat
    rw [h0, ← hxz]
    exact hx
  · exact hm

/-- C8: on every non-empty sample `compute_mode` returns a value occurring in
the sample with maximal occurrence count, and when several values share that
count it returns the smallest such value: `np.unique` sorts the distinct
values ascending and `np.argmax` picks the first index of the maximal count. -/
theorem compute_mode_max_count_min_tie (data : List ℚ) (h : data ≠ []) :
    ∃ m, compute_mode data = .ok m ∧ m ∈ data ∧
      (∀ v ∈ data, data.count v ≤ data.count m) ∧
      (∀ v ∈ data, data.count v = data.count m → m ≤ v) := by
  classical
  set values := List.insertionSort (· ≤ ·) data.dedup with hvalues
  set counts := values.map (fun v => data.count v) with hcounts
  have hperm : values.Perm data.dedup := List.perm_insertionSort _ _
  have hsorted : values.Sorted (· ≤ ·) := List.sorted_insertionSort _ _
  have hmemv : ∀ v, v ∈ values ↔ v ∈ data := fun v =>
    hperm.mem_iff.trans List.mem_dedup
  have hvne : values ≠ [] := by
    intro hnil
    have hlen := hperm.length_eq
    rw [hnil] at hlen
    exact h ((List.dedup_eq_nil data).mp (List.length_eq_zero.mp hlen.symm))
  have hcne : counts ≠ [] := by
    rw [hcounts]
    simpa using hvne
  have hex : ∃ x ∈ counts, (x == listMaxNat counts) = true :=
    ⟨listMaxNat counts, listMaxNat_mem counts hcne, beq_self_eq_true _⟩
  obtain ⟨i, hi⟩ : ∃ n, n = counts.findIdx (fun x => x == listMaxNat counts) :=
    ⟨_, rfl⟩
  have hilen : i < counts.length := by
    rw [hi]; exact List.findIdx_lt_length_of_exists hex
  have hclen : counts.length = values.length := by rw [hcounts]; simp
  have hivlen : i < values.length := by omega
  have hci : counts[i] = listMaxNat counts := by
    subst hi
    exact beq_iff_eq.mp
      (@List.findIdx_getElem _ (fun x => x == listMaxNat counts) counts hilen)
  have hcount : ∀ (j : ℕ) (hj : j < values.length),
      counts[j] = data.count values[j] := by
    intro j hj
    simp only [hcounts, List.getElem_map]
  -- the returned mode
  refine ⟨values[i], ?_, ?_, ?_, ?_⟩
  · have hne : counts.isEmpty = false := List.isEmpty_eq_false.mpr hcne
    unfold compute_mode npUnique
    rw [← hvalues, ← hcounts, npArgmax, hne]
    simp only [Bool.false_eq_true, if_false, ← hi]
    show Except.ok (values.getD i 0) = _
    congr 1
    rw [List.getD_eq_getElem?_getD, List.getElem?_eq_getElem hivlen]
    rfl
  · exact (hmemv _).mp (List.getElem_mem hivlen)
  · intro v hv
    obtain ⟨j, hj, hval⟩ := List.mem_iff_getElem.mp ((hmemv v).mpr hv)
    have h1 : data.count v = counts[j] := by
      rw [hcount j hj, hval]
    have h2 : counts[j] ≤ listMaxNat counts :=
      listMaxNat_ge counts _ (List.getElem_mem _)
    rw [h1, ← hci, ← hcount i hivlen] at *
    omega
  · intro v hv hvcount
    obtain ⟨j, hj, hval⟩ := List.mem_iff_getElem.mp ((hmemv v).mpr hv)
    have h1 : counts[j] = listMaxNat counts := by
      rw [hcount j hj, hval, hvcount, ← hcount i hivlen, hci]
    have hij : i ≤ j := by
      by_contra hlt
      push_neg at hlt
      have hfalse := List.not_of_lt_findIdx (hi ▸ hlt)
      exact beq_eq_false_iff_ne.mp hfalse h1
    have hfin : (⟨i, hivlen⟩ : Fin values.length) ≤ ⟨j, hj⟩ := hij
    have hrel := hsorted.rel_get_of_le hfin
    rw [← hval]
    simpa using hrel

instance decEqExceptPy {ε α : Type} [DecidableEq ε] [DecidableEq α] :
    DecidableEq (Except ε α) := fun a b =>
  match a, b with
  | .ok x, .ok y => decidable_of_iff (x = y) (by simp)
  | .error x, .error y => decidable_of_iff (x = y) (by simp)
  | .ok _, .error _ => isFalse (by simp)
  | .error _, .ok _ => isFalse (by simp)

/-- C7: on the sample `[1, 2, 2, 3, 4]` the mean is `12/5` (= 2.4), the
median is 2, the mode is 2, and the variance is `26/25` (= 1.04) — the
population variance (`np.var` with its default `ddof = 0`), not the
sample-corrected variant; moreover on every sample the standard deviation is
exactly the square root of that variance. -/
theorem statistics_sample_values :
    compute_mean [1, 2, 2, 3, 4] = .ok (12 / 5) ∧
      compute_median [1, 2, 2, 3, 4] = .ok 2 ∧
      compute_mode [1, 2, 2, 3, 4] = .ok 2 ∧
      compute_variance [1, 2, 2, 3, 4] = .ok (26 / 25) ∧
      ∀ data : List ℚ, ∃ v s, compute_variance data = .ok v ∧
        compute_standard_deviation data = .ok s ∧ s = Real.sqrt (v : ℝ) := by
  refine ⟨?_, by decide, by decide, ?_, ?_⟩
  · norm_num [compute_mean]
  · norm_num [compute_variance]
  · intro data
    refine ⟨_, _, rfl, rfl, ?_⟩
    show Real.sqrt _ = Real.sqrt _
    congr 1
    conv_rhs => rw [Rat.cast_div, Rat.cast_list_sum, List.map_map]
    congr 1
    refine congrArg List.sum ?_
    refine List.map_congr_left ?_
    intro v _
    simp only [Function.comp]
    push_cast
    ring

/-- Witness for C8 at the concrete sample `[2, 1, 2]` (mode 2: maximal count
2, no tie; the hypothesis `data ≠ []` is discharged at this input). -/
theorem compute_mode_witness :
    ∃ m, compute_mode [2, 1, 2] = .ok m ∧ m ∈ ([2, 1, 2] : List ℚ) ∧
      (∀ v ∈ ([2, 1, 2] : List ℚ),
        List.count v [2, 1, 2] ≤ List.count m [2, 1, 2]) ∧
      (∀ v ∈ ([2, 1, 2] : List ℚ),
        List.count v [2, 1, 2] = List.count m [2, 1, 2] → m ≤ v) :=
  compute_mode_max_count_min_tie [2, 1, 2] (by simp)

/-! ## ODE solving (`DifferentialEquationSolver`, код.py 68-82) -/

/-- One call of the RK45 stepper's `_step_impl`, abstracted: the stepper
either fails (step size underflow before acceptance) or accepts a trial step
of size `h`.  The embedded Runge-Kutta arithmetic deciding this outcome
involves irrational error norms, so it is the oracle parameter of the model;
the code structure itself enforces that an accepted `h` is at least
`min_step` (otherwise `_step_impl` reports failure) and that the new time is
clipped to the boundary. -/
inductive StepOutcome where
  | fail
  | accept (h : ℚ)

/-- The main loop of `scipy.integrate.solve_ivp` for forward integration
(direction 1), recording time points only (the claim under study concerns the
time sequence alone).  State: remaining `fuel` (scipy's loop is unbounded;
every theorem holds for every fuel, and exhaustion reports status 1
"running"), step counter `k`, current time `t`, accumulated time points
`acc`, and the pending validated `t_eval` entries (`none` = `t_eval is
None`).  Each accepted step advances to `t_new = min (t + h) t_bound` and
appends `t_new` (resp. the pending `t_eval` entries `≤ t_new`, as
`np.searchsorted` does); status 0 = `finished` once `t = t_bound`, status −1
= `failed`. -/
def solveLoop (minStep : ℚ) (oracle : ℕ → StepOutcome) (tBound : ℚ) :
    ℕ → ℕ → ℚ → List ℚ → Option (List ℚ) → List ℚ × Int
  | 0, _, _, acc, _ => (acc, 1)
  | fuel + 1, k, t, acc, tEval =>
    if t = tBound then (acc, 0)
    else
      match oracle k with
      | .fail => (acc, -1)
      | .accept h =>
        if h < minStep then (acc, -1)
        else
          let tNew := min (t + h) tBound
          match tEval with
          | none =>
            solveLoop minStep oracle tBound fuel (k + 1) tNew (acc ++ [tNew]) none
          | some pts =>
            solveLoop minStep oracle tBound fuel (k + 1) tNew
              (acc ++ pts.takeWhile (fun p => decide (p ≤ tNew)))
              (some (pts.dropWhile (fun p => decide (p ≤ tNew))))

/-- `DifferentialEquationSolver.solve_ode` (код.py 69-82) =
`solve_ivp(ode_func, t_span, y0, t_eval=t_eval)` for a forward span,
returning the solution's time points and status.  `solve_ivp` validates
`t_eval` before integrating: every entry must lie within
`[min t0 tf, max t0 tf]` and (for a forward span) the successive differences
must all be positive, else `ValueError`.  With `t_eval=None` the returned
times start as `[t0]`; otherwise they start empty and collect `t_eval`
entries as steps pass them. -/
def solve_ode (minStep : ℚ) (oracle : ℕ → StepOutcome) (fuel : ℕ)
    (t0 tf : ℚ) (tEval : Option (List ℚ)) : Except PyExc (List ℚ × Int) :=
  match tEval with
  | none => .ok (solveLoop minStep oracle tf fuel 0 t0 [t0] none)
  | some pts =>
    if pts.any (fun p => decide (p < min t0 tf) || decide (max t0 tf < p)) then
      .error (.valueError "Values in t_eval are not within t_span.")
    else if (pts.zip pts.tail).any (fun q => decide (q.2 ≤ q.1)) then
      .error (.valueError "Values in t_eval are not properly sorted.")
    else
      .ok (solveLoop minStep oracle tf fuel 0 t0 [] (some pts))

/-- A list whose consecutive pairs are strictly increasing is strictly
increasing as a whole. -/
theorem pairwise_lt_of_zip_tail : ∀ l : List ℚ,
    (∀ q ∈ l.zip l.tail, ¬(q.2 ≤ q.1)) → l.Pairwise (· < ·)
  | [], _ => List.Pairwise.nil
  | [a], _ => by simp
  | a :: b :: t, h => by
    have hab : a < b := not_le.mp (h (a, b) (by simp))
    have ih := pairwise_lt_of_zip_tail (b :: t)
      (fun q hq => h q (by simpa using Or.inr hq))
    refine List.pairwise_cons.mpr ⟨fun x hx => ?_, ih⟩
    rcases List.mem_cons.mp hx with hxb | hxt
    · exact hxb ▸ hab
    · exact lt_trans hab (List.rel_of_pairwise_cons ih hxt)

/-- Invariant of the `solve_ivp` main loop: accumulated time points stay
strictly increasing, bounded by `t_bound`, and keep their first element; the
pending `t_eval` entries stay strictly increasing and above every recorded
point. -/
theorem solveLoop_props (minStep : ℚ) (oracle : ℕ → StepOutcome) (tBound : ℚ)
    (hmin : 0 < minStep) :
    ∀ (fuel k : ℕ) (t : ℚ) (acc : List ℚ) (tEval : Option (List ℚ)),
      t ≤ tBound →
      acc.Pairwise (· < ·) →
      (∀ s ∈ acc, s ≤ t) →
      (∀ pts, tEval = some pts →
        pts.Pairwise (· < ·) ∧ ∀ p ∈ acc, ∀ q ∈ pts, p < q) →
      (solveLoop minStep oracle tBound fuel k t acc tEval).1.Pairwise (· < ·) ∧
        (∀ s ∈ (solveLoop minStep oracle tBound fuel k t acc tEval).1, s ≤ tBound) ∧
        (acc ≠ [] →
          (solveLoop minStep oracle tBound fuel k t acc tEval).1.head? = acc.head?) := by
  intro fuel
  induction fuel with
  | zero =>
    intro k t acc tEval ht hpw hle _
    exact ⟨hpw, fun s hs => le_trans (hle s hs) ht, fun _ => rfl⟩
  | succ n ih =>
    intro k t acc tEval ht hpw hle hev
    rw [solveLoop]
    by_cases htB : t = tBound
    · simp only [htB, if_true]
      exact ⟨hpw, fun s hs => le_trans (hle s hs) ht, fun _ => by trivial⟩
    · simp only [htB, if_false]
      match horacle : oracle k with
      | .fail =>
        exact ⟨hpw, fun s hs => le_trans (hle s hs) ht, fun _ => by simp⟩
      | .accept h =>
        by_cases hh : h < minStep
        · simp only [hh, if_true]
          exact ⟨hpw, fun s hs => le_trans (hle s hs) ht, fun _ => by simp⟩
        · simp only [hh, if_false]
          have htlt : t < tBound := lt_of_le_of_ne ht htB
          have htNew : t < min (t + h) tBound := by
            push_neg at hh
            refine lt_min ?_ htlt
            linarith
          have htNewB : min (t + h) tBound ≤ tBound := min_le_right _ _
          match tEval with
          | none =>
            have hcross : ∀ p ∈ acc, ∀ q ∈ [min (t + h) tBound], p < q := by
              intro p hp q hq
              rw [List.mem_singleton.mp hq]
              exact lt_of_le_of_lt (hle p hp) htNew
            have hpw' : (acc ++ [min (t + h) tBound]).Pairwise (· < ·) :=
              List.pairwise_append.mpr ⟨hpw, by simp, hcross⟩
            have hle' : ∀ s ∈ acc ++ [min (t + h) tBound], s ≤ min (t + h) tBound := by
              intro s hs
              rcases List.mem_append.mp hs with hs | hs
              · exact le_of_lt (lt_of_le_of_lt (hle s hs) htNew)
              · rw [List.mem_singleton.mp hs]
            obtain ⟨c1, c2, c3⟩ := ih (k + 1) (min (t + h) tBound)
              (acc ++ [min (t + h) tBound]) none htNewB hpw' hle' (by simp)
            refine ⟨c1, c2, fun hne => ?_⟩
            rw [c3 (by simp), List.head?_append]
            obtain ⟨x, xs, rfl⟩ := List.exists_cons_of_ne_nil hne
            rfl
          | some pts =>
            obtain ⟨hptspw, hptscross⟩ := hev pts rfl
            have hsplit : pts.takeWhile (fun p => decide (p ≤ min (t + h) tBound))
                ++ pts.dropWhile (fun p => decide (p ≤ min (t + h) tBound)) = pts :=
              List.takeWhile_append_dropWhile _ pts
            have htake : (pts.takeWhile
                (fun p => decide (p ≤ min (t + h) tBound))).Pairwise (· < ·) :=
              List.Pairwise.sublist (List.takeWhile_sublist _) hptspw
            have hdrop : (pts.dropWhile
                (fun p => decide (p ≤ min (t + h) tBound))).Pairwise (· < ·) :=
              List.Pairwise.sublist (List.dropWhile_sublist _) hptspw
            have htdcross : ∀ p ∈ pts.takeWhile (fun p => decide (p ≤ min (t + h) tBound)),
                ∀ q ∈ pts.dropWhile (fun p => decide (p ≤ min (t + h) tBound)), p < q := by
              have := hsplit ▸ hptspw
              exact (List.pairwise_append.mp this).2.2
            have hmemtake : ∀ q ∈ pts.takeWhile (fun p => decide (p ≤ min (t + h) tBound)),
                q ∈ pts := fun q hq => (List.takeWhile_sublist _).mem hq
            have hmemdrop : ∀ q ∈ pts.dropWhile (fun p => decide (p ≤ min (t + h) tBound)),
                q ∈ pts := fun q hq => (List.dropWhile_sublist _).mem hq
            have hpw' : (acc ++ pts.takeWhile
                (fun p => decide (p ≤ min (t + h) tBound))).Pairwise (· < ·) := by
              refine List.pairwise_append.mpr ⟨hpw, htake, ?_⟩
              intro p hp q hq
              exact hptscross p hp q (hmemtake q hq)
            have hle' : ∀ s ∈ acc ++ pts.takeWhile
                (fun p => decide (p ≤ min (t + h) tBound)), s ≤ min (t + h) tBound := by
              intro s hs
              rcases List.mem_append.mp hs with hs | hs
              · exact le_of_lt (lt_of_le_of_lt (hle s hs) htNew)
              · have hq := List.mem_takeWhile_imp hs
                simp only [decide_eq_true_eq] at hq
                exact hq
            have hev' : ∀ rest, (some (pts.dropWhile
                  (fun p => decide (p ≤ min (t + h) tBound))) = some rest) →
                rest.Pairwise (· < ·) ∧
                  ∀ p ∈ acc ++ pts.takeWhile (fun p => decide (p ≤ min (t + h) tBound)),
                    ∀ q ∈ rest, p < q := by
              intro rest hrest
              cases hrest
              refine ⟨hdrop, ?_⟩
              intro p hp q hq
              rcases List.mem_append.mp hp with hp | hp
              · exact hptscross p hp q (hmemdrop q hq)
              · exact htdcross p hp q hq
            obtain ⟨c1, c2, c3⟩ := ih (k + 1) (min (t + h) tBound)
              (acc ++ pts.takeWhile (fun p => decide (p ≤ min (t + h) tBound)))
              (some (pts.dropWhile (fun p => decide (p ≤ min (t + h) tBound))))
              htNewB hpw' hle' hev'
            refine ⟨c1, c2, fun hne => ?_⟩
            have hne' : acc ++ pts.takeWhile
                (fun p => decide (p ≤ min (t + h) tBound)) ≠ [] := by
              simp only [ne_eq, List.append_eq_nil]
              intro ⟨ha, _⟩
              exact hne ha
            rw [c3 hne', List.head?_append]
            obtain ⟨x, xs, rfl⟩ := List.exists_cons_of_ne_nil hne
            rfl

/-- C9 amended: for a forward span (`t0 < tf`) and the positive `min_step`
the stepper enforces, every successful solve returns strictly increasing time
points, all at most `tf`; when `t_eval` is `None` the sequence begins with
`t0` (the accepted-step times), whereas a supplied `t_eval` replaces the
accepted times by the validated strictly increasing `t_eval` entries reached
by the integration — which need not include `t0`. -/
theorem solve_ode_time_ordering (minStep : ℚ) (oracle : ℕ → StepOutcome)
    (fuel : ℕ) (t0 tf : ℚ) (tEval : Option (List ℚ)) (r : List ℚ × Int)
    (hmin : 0 < minStep) (hspan : t0 < tf)
    (hok : solve_ode minStep oracle fuel t0 tf tEval = .ok r) :
    r.1.Pairwise (· < ·) ∧ (∀ s ∈ r.1, s ≤ tf) ∧
      (tEval = none → r.1.head? = some t0) := by
  match tEval with
  | none =>
    simp only [solve_ode, Except.ok.injEq] at hok
    obtain ⟨c1, c2, c3⟩ := solveLoop_props minStep oracle tf hmin fuel 0 t0 [t0]
      none (le_of_lt hspan) (by simp) (by simp) (by simp)
    subst hok
    exact ⟨c1, c2, fun _ => c3 (by simp)⟩
  | some pts =>
    simp only [solve_ode] at hok
    by_cases hA : pts.any (fun p => decide (p < min t0 tf) || decide (max t0 tf < p))
    · rw [if_pos hA] at hok
      exact absurd hok (by simp)
    · rw [if_neg hA] at hok
      by_cases hB : (pts.zip pts.tail).any (fun q => decide (q.2 ≤ q.1))
      · rw [if_pos hB] at hok
        exact absurd hok (by simp)
      · rw [if_neg hB] at hok
        simp only [Except.ok.injEq] at hok
        have hfalse : (pts.zip pts.tail).any (fun q => decide (q.2 ≤ q.1)) = false :=
          Bool.eq_false_iff.mpr hB
        have hpts : pts.Pairwise (· < ·) := by
          refine pairwise_lt_of_zip_tail pts ?_
          intro q hq
          simpa using List.any_eq_false.mp hfalse q hq
        subst hok
        obtain ⟨c1, c2, _⟩ := solveLoop_props minStep oracle tf hmin fuel 0 t0 []
          (some pts) (le_of_lt hspan) (by simp) (by simp)
          (fun pts' hp' => by cases hp'; exact ⟨hpts, by simp⟩)
        exact ⟨c1, c2, by simp⟩

/-- Witness for C9 at a concrete successful forward solve over `(0, 5)` with
`t_eval = None` (one accepted step of size 7, clipped to the boundary),
discharging both hypotheses: the returned points `[0, 5]` are strictly
increasing, bounded by `tf = 5`, and begin with `t0 = 0`. -/
theorem solve_ode_time_ordering_witness :
    ([0, 5] : List ℚ).Pairwise (· < ·) ∧ (∀ s ∈ ([0, 5] : List ℚ), s ≤ (5 : ℚ)) ∧
      ((none : Option (List ℚ)) = none → ([0, 5] : List ℚ).head? = some 0) :=
  solve_ode_time_ordering (1 / 2) (fun _ => .accept 7) 3 0 5 none ([0, 5], 0)
    (by norm_num) (by norm_num) (by norm_num [solve_ode, solveLoop])

/-- C9 counterexample: a successful solve over the span `(0, 5)` with
`t_eval = [1, 2]` (one accepted step of size 5 — realizable, e.g. for a
right-hand side whose error estimate vanishes) returns the time points
`[1, 2]`: the returned sequence starts at 1, not at `t0 = 0`. -/
theorem solve_ode_t_eval_first_point_not_t0 :
    solve_ode (1 / 1000) (fun _ => .accept 5) 12 0 5 (some [1, 2])
      = .ok ([1, 2], 0) ∧ ([1, 2] : List ℚ).head? ≠ some 0 := by
  constructor
  · norm_num [solve_ode, solveLoop]
  · norm_num

/-! ## Matrices (`MatrixOperations` and the module-level functions,
код.py 100-132) -/

/-- `MatrixOperations` (код.py 100-108): holds the matrix set by
`__init__`. -/
structure MatrixOperations where
  matrix : List (List ℚ)
deriving DecidableEq, Repr

/-- Cofactor expansion along the first row: the exact determinant that
`np.linalg.det` approximates in floats. -/
def detL : List (List ℚ) → ℚ
  | [] => 1
  | r :: rows =>
    ((List.range r.length).map
      (fun j => (-1 : ℚ) ^ j * r.getD j 0
        * detL (rows.map (fun row => row.eraseIdx j)))).sum
termination_by l => l.length
decreasing_by simp

/-- The minor of a matrix with row `r` and column `c` removed. -/
def minorL (m : List (List ℚ)) (r c : ℕ) : List (List ℚ) :=
  (m.eraseIdx r).map (fun row => row.eraseIdx c)

/-- The exact inverse via the adjugate (what `np.linalg.inv` approximates):
entry `(i, j)` is `(-1)^(i+j) · det(minor j i) / det m`. -/
def invL (m : List (List ℚ)) : List (List ℚ) :=
  (List.range m.length).map (fun i =>
    (List.range m.length).map (fun j =>
      (-1 : ℚ) ^ (i + j) * detL (minorL m j i) / detL m))

/-- Module-level `compute_determinant` (код.py 116-118): `np.linalg.det` of
the held matrix.  Note it is a module-level function taking `self` as an
ordinary parameter, not a method of `MatrixOperations`. -/
def compute_determinant (m : MatrixOperations) : ℚ :=
  detL m.matrix

/-- The zero-argument numeric methods available on a `MatrixOperations`
instance.  The class body (код.py 100-108) defines only `__init__` (which
stores `matrix`); `transpose_matrix`, `compute_determinant`,
`compute_inverse` and `compute_eigenvalues_and_vectors` (код.py 111-132) are
module-level functions, not class attributes, so the table is empty — in
particular no attribute named "determinant" exists anywhere. -/
def matrixOperationsMethods : List (String × (MatrixOperations → ℚ)) := []

/-- The Python method call `m.<name>()` on a `MatrixOperations` value:
attribute lookup first; `AttributeError` when the name resolves neither on
the instance (whose only data attribute is `matrix`, not a callable) nor on
the class. -/
def callMethod (m : MatrixOperations) (name : String) : Except PyExc ℚ :=
  match matrixOperationsMethods.find? (fun p => p.1 == name) with
  | some p => .ok (p.2 m)
  | none => .error (.attributeError name)

/-- Module-level `compute_inverse` (код.py 121-127): guards on
`self.determinant() == 0` — raising `ValueError` for a singular matrix — and
otherwise returns `np.linalg.inv(self.matrix)`. -/
def compute_inverse (m : MatrixOperations) : Except PyExc (List (List ℚ)) :=
  (callMethod m "determinant").bind (fun det =>
    if det = 0 then
      .error (.valueError "the inverse matrix does not exist for this matrix")
    else .ok (invL m.matrix))

/-- C10: for every `MatrixOperations` value, singular or not,
`compute_inverse` raises `AttributeError` at its very first step: its guard
calls `self.determinant()`, and no attribute of that name exists anywhere in
the program (the module-level function is `compute_determinant`, which is not
a class attribute), so the singular-matrix `ValueError` branch and the
inverse computation are unreachable. -/
theorem compute_inverse_attribute_error (m : MatrixOperations) :
    compute_inverse m = .error (.attributeError "determinant") := rfl

end Msdt
